import Mathlib

/-!
Shallow embedding of `src/affine.rs` from the imageproc repository:
affine transformations of images (generic inverse-mapped resampling,
rotation with incremental scanline stepping, integer translation with
edge-clamped fill, and the nearest-neighbour / bilinear sampling
primitives).

Floating-point (`f32`) arithmetic is modelled exactly over `ℚ`; machine
integer conversions (`as u32`, `as usize`, `as i32`) are modelled at their
use sites, with wrap-around written out explicitly where it matters.
Pixels are modelled as a single exact-valued channel (`ℚ`): the external
`cast`/`Clamp` capability of the repository (not under `src/`) is, per the
spec, conversion of a channel value to floating point and clamping back
into the native range, which for an exact single-channel pixel is the
identity.

Fallible operations (a bounds-checked `get_pixel`/`put_pixel` that panics
out of bounds, slice operations that panic on out-of-range indices, and
the `Option`-returning `affine` entry points) return `Option`: `none`
models both a reported absence and a panic.
-/

/-- A pixel: one exact-valued colour channel. The repository's generic
pixel type `P` is instantiated at a single channel; `CHANNEL_COUNT = 1`. -/
abbrev Pix := ℚ

/-- An image: a `width × height` grid of pixels stored row-major in a flat
buffer, as in `ImageBuffer`. -/
structure Image where
  width : ℕ
  height : ℕ
  data : List Pix
deriving DecidableEq, Repr

namespace Image

/-- Well-formedness: the flat buffer holds exactly `height * width` pixels,
as guaranteed by `ImageBuffer`. -/
def wf (img : Image) : Prop := img.data.length = img.height * img.width

instance (img : Image) : Decidable img.wf := by unfold wf; infer_instance

/-- Raw buffer read at the row-major index `y * width + x`
(`unsafe_get_pixel`); out-of-range reads return junk (never exercised:
see the bounds-safety theorems). -/
def getPix (img : Image) (x y : ℕ) : Pix :=
  img.data.getD (y * img.width + x) 0

/-- Guarded pixel access: `some` exactly when `(x, y)` lies within
`[0, width) × [0, height)`. This models both the bounds-checked
`get_pixel` (which panics out of bounds: `none`) and the guarded reading
of the otherwise unchecked accesses. -/
def getPixel? (img : Image) (x y : ℕ) : Option Pix :=
  if x < img.width ∧ y < img.height then some (img.getPix x y) else none

end Image

/-- Builds a `width × height` image whose pixel at `(x, y)` is `f x y`,
writing every output coordinate of the row-major double loop
`for y in 0..height { for x in 0..width { out[(x, y)] := f x y } }`
(flattened: buffer index `i = y*width + x` holds `f (i % width) (i / width)`). -/
def mkImage (w h : ℕ) (f : ℕ → ℕ → Pix) : Image :=
  ⟨w, h, (List.range (h * w)).map (fun i => f (i % w) (i / w))⟩

/-- A 2d affine transform, stored as a row major 3x3 matrix
(`[f32; 9]`, modelled as nine rational entries `t0 .. t8`). -/
structure Affine2 where
  t0 : ℚ
  t1 : ℚ
  t2 : ℚ
  t3 : ℚ
  t4 : ℚ
  t5 : ℚ
  t6 : ℚ
  t7 : ℚ
  t8 : ℚ
deriving DecidableEq, Repr

/-- A 2d point. -/
structure Point2 where
  x : ℚ
  y : ℚ
deriving DecidableEq, Repr

namespace Affine2

/-- `Affine2::from_matrix_unchecked`: builds the transform from a row-major
3x3 matrix with no validation. -/
def from_matrix_unchecked (t0 t1 t2 t3 t4 t5 t6 t7 t8 : ℚ) : Affine2 :=
  ⟨t0, t1, t2, t3, t4, t5, t6, t7, t8⟩

/-- The determinant as computed inside `Affine2::try_inverse`, by cofactor
expansion along the first row:
`det = t00 * (t11*t22 - t12*t21) - t01 * (t10*t22 - t12*t20) + t02 * (t10*t21 - t11*t20)`. -/
def det (a : Affine2) : ℚ :=
  a.t0 * (a.t4 * a.t8 - a.t5 * a.t7)
    - a.t1 * (a.t3 * a.t8 - a.t5 * a.t6)
    + a.t2 * (a.t3 * a.t7 - a.t4 * a.t6)

/-- `Affine2::try_inverse`: cofactor expansion; `none` when the determinant
is exactly `0`, otherwise the adjugate divided entrywise by the
determinant. -/
def try_inverse (a : Affine2) : Option Affine2 :=
  let t00 := a.t0; let t01 := a.t1; let t02 := a.t2
  let t10 := a.t3; let t11 := a.t4; let t12 := a.t5
  let t20 := a.t6; let t21 := a.t7; let t22 := a.t8
  let m00 := t11 * t22 - t12 * t21
  let m01 := t10 * t22 - t12 * t20
  let m02 := t10 * t21 - t11 * t20
  let d := t00 * m00 - t01 * m01 + t02 * m02
  if d = 0 then none
  else
    let m10 := t01 * t22 - t02 * t21
    let m11 := t00 * t22 - t02 * t20
    let m12 := t00 * t21 - t01 * t20
    let m20 := t01 * t12 - t02 * t11
    let m21 := t00 * t12 - t02 * t10
    let m22 := t00 * t11 - t01 * t10
    some (from_matrix_unchecked
      (m00 / d) (-m10 / d) (m20 / d)
      (-m01 / d) (m11 / d) (-m21 / d)
      (m02 / d) (-m12 / d) (m22 / d))

/-- `impl Mul<Point2> for Affine2`: applies the transform to a point as a
homogeneous column vector `(x, y, 1)`, dropping the third row. -/
def mul (a : Affine2) (p : Point2) : Point2 :=
  ⟨a.t0 * p.x + a.t1 * p.y + a.t2, a.t3 * p.x + a.t4 * p.y + a.t5⟩

end Affine2

/-- How to handle pixels whose pre-image lies between input pixels. -/
inductive Interpolation where
  | Nearest
  | Bilinear
deriving DecidableEq, Repr

/-- `f32::round`: rounds to the nearest integer, half-way cases away from
zero. -/
def rnd (q : ℚ) : ℤ :=
  if 0 ≤ q then ⌊q + 1 / 2⌋ else ⌈q - 1 / 2⌉

/-- `blend`: per-channel bilinear combination — horizontally interpolate
the top and bottom pairs with `right_weight`, then vertically with
`bottom_weight`. The external cast-to-float / clamp-to-native capability
is the identity for the exact single-channel pixel. -/
def blend (top_left top_right bottom_left bottom_right : Pix)
    (right_weight bottom_weight : ℚ) : Pix :=
  let top := (1 - right_weight) * top_left + right_weight * top_right
  let bottom := (1 - right_weight) * bottom_left + right_weight * bottom_right
  (1 - bottom_weight) * top + bottom_weight * bottom

/-- `interpolate`: bilinear sampling at the real-valued coordinate
`(x, y)`; falls back to `default` when the 2×2 neighbourhood
`[left, right] × [top, bottom]` is not fully inside the image. -/
def interpolate (image : Image) (x y : ℚ) (default : Pix) : Pix :=
  let left := (⌊x⌋ : ℚ)
  let right := left + 1
  let top := (⌊y⌋ : ℚ)
  let bottom := top + 1
  let right_weight := x - left
  let bottom_weight := y - top
  if left < 0 ∨ (image.width : ℚ) ≤ right ∨ top < 0 ∨ (image.height : ℚ) ≤ bottom then
    default
  else
    blend (image.getPix ⌊x⌋.toNat ⌊y⌋.toNat)
      (image.getPix (⌊x⌋ + 1).toNat ⌊y⌋.toNat)
      (image.getPix ⌊x⌋.toNat (⌊y⌋ + 1).toNat)
      (image.getPix (⌊x⌋ + 1).toNat (⌊y⌋ + 1).toNat)
      right_weight bottom_weight

/-- `nearest`: rounds `(x, y)` to the nearest grid coordinate and returns
that pixel when it lies within `[0, width) × [0, height)`, else `default`. -/
def nearest (image : Image) (x y : ℚ) (default : Pix) : Pix :=
  let rx := (rnd x : ℚ)
  let ry := (rnd y : ℚ)
  if rx < 0 ∨ (image.width : ℚ) ≤ rx ∨ ry < 0 ∨ (image.height : ℚ) ≤ ry then
    default
  else
    image.getPix (rnd x).toNat (rnd y).toNat

/-- `affine_with_default`: inverse-mapped resampling over an arbitrary
affine transform; `none` when the transform is not invertible, otherwise
for every output `(x, y)` samples the input at `inverse * (x, y)` by the
chosen interpolation. -/
def affine_with_default (image : Image) (affine : Affine2) (default : Pix)
    (interpolation : Interpolation) : Option Image :=
  match affine.try_inverse with
  | none => none
  | some inverse =>
    some (mkImage image.width image.height (fun x y =>
      let preimage := inverse.mul ⟨(x : ℚ), (y : ℚ)⟩
      match interpolation with
      | Interpolation.Nearest => nearest image preimage.x preimage.y default
      | Interpolation.Bilinear => interpolate image preimage.x preimage.y default))

/-- The canonical black pixel of the colour type (`HasBlack`, external to
`src/`). Modelled from the spec: a conventional "black"/default value for
the channel — the zero channel value. -/
def blackPix : Pix := 0

/-- `affine`: `affine_with_default` with the default fixed to black. -/
def affine (image : Image) (aff : Affine2) (interpolation : Interpolation) :
    Option Image :=
  affine_with_default image aff blackPix interpolation

/-- The pre-image x-coordinate used at column `x` by the incremental
scanline stepping of the rotation loops: start from the row-initial value
`px0` at `x = 0` and add `cos_theta` once per subsequent column
(`px += cos_theta`). -/
def stepPx (px0 cos_theta : ℚ) : ℕ → ℚ
  | 0 => px0
  | n + 1 => stepPx px0 cos_theta n + cos_theta

/-- The pre-image y-coordinate used at column `x` by the incremental
scanline stepping of the rotation loops: start from the row-initial value
`py0` at `x = 0` and subtract `sin_theta` once per subsequent column
(`py -= sin_theta`). -/
def stepPy (py0 sin_theta : ℚ) : ℕ → ℚ
  | 0 => py0
  | n + 1 => stepPy py0 sin_theta n - sin_theta

/-- The row-initial pre-image x-coordinate of the rotation loops at
`x = 0`: `px = center_x + sin_theta * dy - cos_theta * center_x` with
`dy = y - center_y`. -/
def rowInitPx (center_x center_y cos_theta sin_theta : ℚ) (y : ℕ) : ℚ :=
  center_x + sin_theta * ((y : ℚ) - center_y) - cos_theta * center_x

/-- The row-initial pre-image y-coordinate of the rotation loops at
`x = 0`: `py = center_y + cos_theta * dy + sin_theta * center_x` with
`dy = y - center_y`. -/
def rowInitPy (center_x center_y cos_theta sin_theta : ℚ) (y : ℕ) : ℚ :=
  center_y + cos_theta * ((y : ℚ) - center_y) + sin_theta * center_x

/-- `rotate_nearest`: rotation about `center` sampling by `nearest`.
The source computes `cos_theta = theta.cos()` and `sin_theta =
theta.sin()` once per call; the trigonometric evaluation is an external
`f32` primitive, so the embedding takes the precomputed pair
`(cos_theta, sin_theta)` as parameters. Each row starts at the
closed-form initial pre-image coordinate and steps incrementally
across columns. -/
def rotate_nearest (image : Image) (center : ℚ × ℚ)
    (cos_theta sin_theta : ℚ) (default : Pix) : Image :=
  let center_x := center.1
  let center_y := center.2
  mkImage image.width image.height (fun x y =>
    nearest image
      (stepPx (rowInitPx center_x center_y cos_theta sin_theta y) cos_theta x)
      (stepPy (rowInitPy center_x center_y cos_theta sin_theta y) sin_theta x)
      default)

/-- `rotate_bilinear`: rotation about `center` sampling by `interpolate`,
with the same incremental scanline stepping as `rotate_nearest`. -/
def rotate_bilinear (image : Image) (center : ℚ × ℚ)
    (cos_theta sin_theta : ℚ) (default : Pix) : Image :=
  let center_x := center.1
  let center_y := center.2
  mkImage image.width image.height (fun x y =>
    interpolate image
      (stepPx (rowInitPx center_x center_y cos_theta sin_theta y) cos_theta x)
      (stepPy (rowInitPy center_x center_y cos_theta sin_theta y) sin_theta x)
      default)

/-- `rotate_with_default`: dispatches on the interpolation mode. Like the
rotation loops, takes the externally computed `(cos theta, sin theta)`
pair in place of the angle `theta`. -/
def rotate_with_default (image : Image) (center : ℚ × ℚ)
    (cos_theta sin_theta : ℚ) (default : Pix)
    (interpolation : Interpolation) : Image :=
  match interpolation with
  | Interpolation.Nearest => rotate_nearest image center cos_theta sin_theta default
  | Interpolation.Bilinear => rotate_bilinear image center cos_theta sin_theta default

/-- `rotate`: `rotate_with_default` with the default fixed to black. -/
def rotate (image : Image) (center : ℚ × ℚ) (cos_theta sin_theta : ℚ)
    (interpolation : Interpolation) : Image :=
  rotate_with_default image center cos_theta sin_theta blackPix interpolation

/-- `rotate_about_center`: `rotate` about the image midpoint
`(width / 2, height / 2)`. -/
def rotate_about_center (image : Image) (cos_theta sin_theta : ℚ)
    (interpolation : Interpolation) : Image :=
  rotate image ((image.width : ℚ) / 2, (image.height : ℚ) / 2)
    cos_theta sin_theta interpolation

/-- Bounds-checked buffer write (`put_pixel` on the output buffer of
dimensions `w × h`): `none` models the out-of-bounds panic. -/
def putPix (w h : ℕ) (buf : List Pix) (x y : ℕ) (v : Pix) : Option (List Pix) :=
  if x < w ∧ y < h then some (buf.set (y * w + x) v) else none

/-- Writes the pixel `v` at row `y`, columns `xs`, of the output buffer:
the edge-replication fill loops of `translate`. -/
def fillCols (w h y : ℕ) (v : Pix) (xs : List ℕ) (buf : List Pix) :
    Option (List Pix) :=
  xs.foldlM (fun b x => putPix w h b x y v) buf

/-- `dst[dstBase..][..len].copy_from_slice(&src[srcBase..][..len])`:
copies `len` consecutive entries; `none` models the panic when either
range leaves its buffer. -/
def copyFromSlice (dst : List Pix) (dstBase : ℕ) (src : List Pix)
    (srcBase len : ℕ) : Option (List Pix) :=
  if dstBase + len ≤ dst.length ∧ srcBase + len ≤ src.length then
    some ((List.range len).foldl
      (fun b k => b.set (dstBase + k) (src.getD (srcBase + k) 0)) dst)
  else none

/-- One iteration of the row loop of `translate` at output row `y`:
clamp the source row, then edge-fill and bulk-copy. The `u32`
subtraction `width - 1` and the release-mode wrap of
`y_in * width - (t.0 as usize)` (for `t.0 ≤ 0` the operand
`t.0 as usize` is the wrapped value `2^64 + t.0`, and the usize
subtraction wraps back to `y_in * width - t.0`) are written out
explicitly. -/
def translateRow (image : Image) (t : ℤ × ℤ) (w h : ℕ) (y : ℕ)
    (buf : List Pix) : Option (List Pix) :=
  let y_in : ℕ := (max 0 (min ((y : ℤ) - t.2) ((h : ℤ) - 1))).toNat
  if 0 < t.1 then
    match image.getPixel? 0 y_in with
    | none => none
    | some p_min =>
      match fillCols w h y p_min (List.range (min t.1 (w : ℤ)).toNat) buf with
      | none => none
      | some buf1 =>
        if t.1 < (w : ℤ) then
          copyFromSlice buf1 (y * w + t.1.toNat) image.data (y_in * w)
            ((w : ℤ) - t.1).toNat
        else some buf1
  else
    match image.getPixel? ((w + 2 ^ 32 - 1) % 2 ^ 32) y_in with
    | none => none
    | some p_max =>
      let s : ℕ := (max ((w : ℤ) + t.1) 0).toNat
      match fillCols w h y p_max (List.range' s (w - s)) buf with
      | none => none
      | some buf1 =>
        if 0 < (w : ℤ) + t.1 then
          copyFromSlice buf1 (y * w) image.data (y_in * w + (-t.1).toNat)
            ((w : ℤ) + t.1).toNat
        else some buf1

/-- `translate`: integer shift with edge-clamped fill, processing output
rows top to bottom over a zero-initialized buffer (`ImageBuffer::new`
zero-fills); `none` models a panic in any row. -/
def Image.translate (image : Image) (t : ℤ × ℤ) : Option Image :=
  let w := image.width
  let h := image.height
  match (List.range h).foldlM
      (fun buf y => translateRow image t w h y buf)
      (List.replicate (h * w) (0 : Pix)) with
  | none => none
  | some buf => some ⟨w, h, buf⟩

/-- The pre-image of output coordinate `(x, y)` under the full closed-form
inverse clockwise-rotation-about-center map. Stated from the spec's words
(the refinement target of the incremental stepping): the row-initial
formula is this map evaluated at `x = 0`, and each column advances the
first coordinate by `cos_theta` and retreats the second by `sin_theta`. -/
def closedFormPreimage (center_x center_y cos_theta sin_theta : ℚ)
    (x y : ℕ) : Point2 :=
  ⟨center_x + cos_theta * ((x : ℚ) - center_x) + sin_theta * ((y : ℚ) - center_y),
   center_y - sin_theta * ((x : ℚ) - center_x) + cos_theta * ((y : ℚ) - center_y)⟩

lemma stepPx_eq (px0 c : ℚ) (x : ℕ) : stepPx px0 c x = px0 + (x : ℚ) * c := by
  induction x with
  | zero => simp [stepPx]
  | succ n ih => simp only [stepPx, ih]; push_cast; ring

lemma stepPy_eq (py0 s : ℚ) (x : ℕ) : stepPy py0 s x = py0 - (x : ℚ) * s := by
  induction x with
  | zero => simp [stepPy]
  | succ n ih => simp only [stepPy, ih]; push_cast; ring

lemma mkImage_width (w h : ℕ) (f : ℕ → ℕ → Pix) : (mkImage w h f).width = w := rfl

lemma mkImage_height (w h : ℕ) (f : ℕ → ℕ → Pix) : (mkImage w h f).height = h := rfl

lemma row_major_index_lt {w h x y : ℕ} (hx : x < w) (hy : y < h) :
    y * w + x < h * w := by
  calc y * w + x < y * w + w := by omega
  _ = (y + 1) * w := by ring
  _ ≤ h * w := Nat.mul_le_mul_right w (by omega)

lemma mkImage_getPix (w h : ℕ) (f : ℕ → ℕ → Pix) {x y : ℕ}
    (hx : x < w) (hy : y < h) : (mkImage w h f).getPix x y = f x y := by
  have hlt : y * w + x < h * w := row_major_index_lt hx hy
  have hmod : (y * w + x) % w = x := by
    rw [Nat.mul_comm y w, Nat.mul_add_mod, Nat.mod_eq_of_lt hx]
  have hdiv : (y * w + x) / w = y := by
    rw [Nat.mul_comm y w, Nat.mul_add_div (by omega), Nat.div_eq_of_lt hx,
      Nat.add_zero]
  simp only [mkImage, Image.getPix]
  rw [List.getD_eq_getElem?_getD, List.getElem?_map, List.getElem?_range hlt]
  simp [hmod, hdiv]

lemma mkImage_self {img : Image} (hwf : img.wf)
    (f : ℕ → ℕ → Pix)
    (hf : ∀ x y, x < img.width → y < img.height → f x y = img.getPix x y) :
    mkImage img.width img.height f = img := by
  obtain ⟨w, h, data⟩ := img
  simp only [Image.wf] at hwf
  simp only [mkImage, Image.mk.injEq, true_and]
  apply List.ext_getElem
  · simpa using hwf.symm
  · intro i h1 h2
    have hi : i < h * w := by simpa using h1
    have hw : 0 < w := by
      rcases Nat.eq_zero_or_pos w with h0 | h0
      · rw [h0, Nat.mul_zero] at hi; omega
      · exact h0
    have hx : i % w < w := Nat.mod_lt _ hw
    have hy : i / w < h := Nat.div_lt_of_lt_mul (Nat.mul_comm h w ▸ hi)
    have := hf (i % w) (i / w) hx hy
    simp only [List.getElem_map, List.getElem_range, this, Image.getPix]
    rw [List.getD_eq_getElem?_getD]
    have hidx : i / w * w + i % w = i := by
      rw [Nat.mul_comm]; exact Nat.div_add_mod i w
    rw [hidx, List.getElem?_eq_getElem h2]
    rfl

lemma rnd_natCast (n : ℕ) : rnd (n : ℚ) = (n : ℤ) := by
  unfold rnd
  rw [if_pos (by positivity), Int.floor_eq_iff]
  constructor
  · push_cast; linarith
  · push_cast; linarith

lemma nearest_natCast (img : Image) (x y : ℕ) (d : Pix)
    (hx : x < img.width) (hy : y < img.height) :
    nearest img (x : ℚ) (y : ℚ) d = img.getPix x y := by
  unfold nearest
  rw [rnd_natCast, rnd_natCast]
  rw [if_neg]
  · simp
  · push_cast
    simp only [not_or, not_lt, not_le]
    refine ⟨by positivity, by exact_mod_cast hx, by positivity, by exact_mod_cast hy⟩

/-- C2: `Affine2::try_inverse` returns no inverse exactly when the
determinant computed by cofactor expansion is exactly zero (no epsilon
tolerance); otherwise it returns the adjugate divided entrywise by the
determinant. -/
theorem try_inverse_none_iff_det_zero (a : Affine2) :
    (a.try_inverse = none ↔ a.det = 0) ∧
    (a.det ≠ 0 →
      a.try_inverse = some (Affine2.from_matrix_unchecked
        ((a.t4 * a.t8 - a.t5 * a.t7) / a.det)
        (-(a.t1 * a.t8 - a.t2 * a.t7) / a.det)
        ((a.t1 * a.t5 - a.t2 * a.t4) / a.det)
        (-(a.t3 * a.t8 - a.t5 * a.t6) / a.det)
        ((a.t0 * a.t8 - a.t2 * a.t6) / a.det)
        (-(a.t0 * a.t5 - a.t2 * a.t3) / a.det)
        ((a.t3 * a.t7 - a.t4 * a.t6) / a.det)
        (-(a.t0 * a.t7 - a.t1 * a.t6) / a.det)
        ((a.t0 * a.t4 - a.t1 * a.t3) / a.det))) := by
  have hchar : a.try_inverse = if a.det = 0 then none
      else some (Affine2.from_matrix_unchecked
        ((a.t4 * a.t8 - a.t5 * a.t7) / a.det)
        (-(a.t1 * a.t8 - a.t2 * a.t7) / a.det)
        ((a.t1 * a.t5 - a.t2 * a.t4) / a.det)
        (-(a.t3 * a.t8 - a.t5 * a.t6) / a.det)
        ((a.t0 * a.t8 - a.t2 * a.t6) / a.det)
        (-(a.t0 * a.t5 - a.t2 * a.t3) / a.det)
        ((a.t3 * a.t7 - a.t4 * a.t6) / a.det)
        (-(a.t0 * a.t7 - a.t1 * a.t6) / a.det)
        ((a.t0 * a.t4 - a.t1 * a.t3) / a.det)) := rfl
  rw [hchar]
  constructor
  · split
    · simp_all
    · simp_all
  · intro h
    rw [if_neg h]

/-- Witness for C2: the diagonal matrix diag(2, 1, 1) has determinant 2
and inverts to diag(1/2, 1, 1). -/
theorem try_inverse_none_iff_det_zero_witness :
    Affine2.try_inverse (Affine2.from_matrix_unchecked 2 0 0 0 1 0 0 0 1) =
      some (Affine2.from_matrix_unchecked (1/2) 0 0 0 1 0 0 0 1) := by
  have h :=
    (try_inverse_none_iff_det_zero (Affine2.from_matrix_unchecked 2 0 0 0 1 0 0 0 1)).2
      (by norm_num [Affine2.det, Affine2.from_matrix_unchecked])
  rw [h]
  norm_num [Affine2.det, Affine2.from_matrix_unchecked]

/-- C6: the incremental scanline stepping of the rotation routines
(row-initial pre-image plus `cos_theta` / minus `sin_theta` per column)
produces at every output coordinate exactly the pre-image given by the
closed-form inverse rotation-about-center formula: both rotation loops
equal their closed-form counterparts. -/
theorem rotation_stepping_eq_closed_form (image : Image) (center : ℚ × ℚ)
    (cos_theta sin_theta : ℚ) (default : Pix) :
    rotate_nearest image center cos_theta sin_theta default =
      mkImage image.width image.height (fun x y =>
        nearest image
          (closedFormPreimage center.1 center.2 cos_theta sin_theta x y).x
          (closedFormPreimage center.1 center.2 cos_theta sin_theta x y).y
          default) ∧
    rotate_bilinear image center cos_theta sin_theta default =
      mkImage image.width image.height (fun x y =>
        interpolate image
          (closedFormPreimage center.1 center.2 cos_theta sin_theta x y).x
          (closedFormPreimage center.1 center.2 cos_theta sin_theta x y).y
          default) := by
  have hx : ∀ y x : ℕ,
      stepPx (rowInitPx center.1 center.2 cos_theta sin_theta y) cos_theta x =
        (closedFormPreimage center.1 center.2 cos_theta sin_theta x y).x := by
    intro y x
    rw [stepPx_eq]
    unfold rowInitPx closedFormPreimage
    ring
  have hy : ∀ y x : ℕ,
      stepPy (rowInitPy center.1 center.2 cos_theta sin_theta y) sin_theta x =
        (closedFormPreimage center.1 center.2 cos_theta sin_theta x y).y := by
    intro y x
    rw [stepPy_eq]
    unfold rowInitPy closedFormPreimage
    ring
  constructor
  · unfold rotate_nearest
    simp only [hx, hy]
  · unfold rotate_bilinear
    simp only [hx, hy]

/-- C5 (amended): bilinear interpolation at an exact integer coordinate
equals the stored pixel on the interior grid, that is whenever the
coordinate's successor on each axis is still within bounds
(`x + 1 < width`, `y + 1 < height`); on the right/bottom border the
outer-corner bounds test fires instead (see the counterexample). -/
theorem interpolate_exact_integer_inner (img : Image) (x y : ℕ) (d : Pix)
    (hx : x + 1 < img.width) (hy : y + 1 < img.height) :
    interpolate img (x : ℚ) (y : ℚ) d = img.getPix x y := by
  unfold interpolate
  rw [Int.floor_natCast, Int.floor_natCast]
  rw [if_neg]
  · unfold blend
    push_cast
    ring_nf
    simp [Int.toNat_natCast]
  · push_cast
    simp only [not_or, not_lt, not_le]
    refine ⟨by positivity, ?_, by positivity, ?_⟩
    · have : ((x : ℚ) + 1) < (img.width : ℚ) := by exact_mod_cast hx
      linarith
    · have : ((y : ℚ) + 1) < (img.height : ℚ) := by exact_mod_cast hy
      linarith

/-- Witness for C5: on a 2×2 image, interpolation at the integer
coordinate (0, 0) returns the stored top-left pixel. -/
theorem interpolate_exact_integer_inner_witness :
    interpolate ⟨2, 2, [1, 2, 3, 4]⟩ ((0 : ℕ) : ℚ) ((0 : ℕ) : ℚ) 99 =
      Image.getPix ⟨2, 2, [1, 2, 3, 4]⟩ 0 0 :=
  interpolate_exact_integer_inner ⟨2, 2, [1, 2, 3, 4]⟩ 0 0 99 (by decide) (by decide)

/-- Counterexample to C5 as stated: on the 1×1 image with pixel 5, the
integer coordinate (0, 0) is in bounds (`0 < width`, `0 < height`), yet
`interpolate` returns the default 7, not the stored pixel 5, because the
outer corner (1, 1) is out of bounds. -/
theorem interpolate_exact_integer_counterexample :
    0 < Image.width ⟨1, 1, [5]⟩ ∧ 0 < Image.height ⟨1, 1, [5]⟩ ∧
    interpolate ⟨1, 1, [5]⟩ ((0 : ℕ) : ℚ) ((0 : ℕ) : ℚ) 7 = 7 ∧
    Image.getPix ⟨1, 1, [5]⟩ 0 0 = 5 := by
  refine ⟨by decide, by decide, ?_, by norm_num [Image.getPix]⟩
  norm_num [interpolate]

/-- C4: `interpolate` returns the supplied default exactly when the outer
2×2 neighbourhood test fails — `⌊x⌋ < 0`, `⌊x⌋ + 1 ≥ width`, `⌊y⌋ < 0` or
`⌊y⌋ + 1 ≥ height` — so a coordinate whose floor is in bounds but whose
floor+1 is not still falls back to the default; otherwise it returns the
bilinear blend of the four surrounding pixels. -/
theorem interpolate_default_iff_outer_corner_oob (img : Image) (x y : ℚ) (d : Pix) :
    ((⌊x⌋ < 0 ∨ (img.width : ℤ) ≤ ⌊x⌋ + 1 ∨ ⌊y⌋ < 0 ∨ (img.height : ℤ) ≤ ⌊y⌋ + 1) →
      interpolate img x y d = d) ∧
    (¬(⌊x⌋ < 0 ∨ (img.width : ℤ) ≤ ⌊x⌋ + 1 ∨ ⌊y⌋ < 0 ∨ (img.height : ℤ) ≤ ⌊y⌋ + 1) →
      interpolate img x y d =
        blend (img.getPix ⌊x⌋.toNat ⌊y⌋.toNat)
          (img.getPix (⌊x⌋ + 1).toNat ⌊y⌋.toNat)
          (img.getPix ⌊x⌋.toNat (⌊y⌋ + 1).toNat)
          (img.getPix (⌊x⌋ + 1).toNat (⌊y⌋ + 1).toNat)
          (x - ⌊x⌋) (y - ⌊y⌋)) := by
  have hc : ((⌊x⌋ : ℚ) < 0 ∨ (img.width : ℚ) ≤ (⌊x⌋ : ℚ) + 1 ∨
      (⌊y⌋ : ℚ) < 0 ∨ (img.height : ℚ) ≤ (⌊y⌋ : ℚ) + 1) ↔
      (⌊x⌋ < 0 ∨ (img.width : ℤ) ≤ ⌊x⌋ + 1 ∨ ⌊y⌋ < 0 ∨ (img.height : ℤ) ≤ ⌊y⌋ + 1) := by
    constructor <;> intro h <;>
      rcases h with h | h | h | h
    · exact Or.inl (by exact_mod_cast h)
    · exact Or.inr (Or.inl (by exact_mod_cast h))
    · exact Or.inr (Or.inr (Or.inl (by exact_mod_cast h)))
    · exact Or.inr (Or.inr (Or.inr (by exact_mod_cast h)))
    · exact Or.inl (by exact_mod_cast h)
    · exact Or.inr (Or.inl (by exact_mod_cast h))
    · exact Or.inr (Or.inr (Or.inl (by exact_mod_cast h)))
    · exact Or.inr (Or.inr (Or.inr (by exact_mod_cast h)))
  constructor
  · intro h
    unfold interpolate
    rw [if_pos (hc.mpr h)]
  · intro h
    unfold interpolate
    rw [if_neg (fun hq => h (hc.mp hq))]

/-- Witness for C4: on the 1×1 image, the coordinate (0, 0) has its floor
in bounds but its outer corner (1, 1) out of bounds, so the default 7 is
returned; at (1/2, 1/2) on a 2×2 image the in-bounds branch blends the
four pixels. -/
theorem interpolate_default_iff_outer_corner_oob_witness :
    interpolate ⟨1, 1, [5]⟩ 0 0 7 = 7 ∧
    interpolate ⟨2, 2, [1, 2, 3, 4]⟩ (1/2) (1/2) 99 = blend 1 2 3 4 (1/2) (1/2) := by
  constructor
  · exact (interpolate_default_iff_outer_corner_oob ⟨1, 1, [5]⟩ 0 0 7).1
      (by norm_num)
  · have h :=
      (interpolate_default_iff_outer_corner_oob ⟨2, 2, [1, 2, 3, 4]⟩ (1/2) (1/2) 99).2
        (by norm_num)
    rw [h]
    norm_num [Image.getPix, blend]

/-- C7: rotating by 0 radians (`cos 0 = 1`, `sin 0 = 0`, both exact in
`f32`) with nearest-neighbour interpolation reproduces the input image
exactly, for every center and default pixel. -/
theorem rotate_nearest_zero_theta_id (img : Image) (hwf : img.wf)
    (center : ℚ × ℚ) (d : Pix) :
    rotate_nearest img center 1 0 d = img := by
  unfold rotate_nearest
  apply mkImage_self hwf
  intro x y hx hy
  have hpx : stepPx (rowInitPx center.1 center.2 1 0 y) 1 x = (x : ℚ) := by
    rw [stepPx_eq]; unfold rowInitPx; ring
  have hpy : stepPy (rowInitPy center.1 center.2 1 0 y) 0 x = (y : ℚ) := by
    rw [stepPy_eq]; unfold rowInitPy; ring
  rw [hpx, hpy]
  exact nearest_natCast img x y d hx hy

/-- Witness for C7: rotating a concrete 2×1 image by zero radians about
(5, 7) returns it unchanged. -/
theorem rotate_nearest_zero_theta_id_witness :
    rotate_nearest ⟨2, 1, [3, 4]⟩ (5, 7) 1 0 99 = ⟨2, 1, [3, 4]⟩ :=
  rotate_nearest_zero_theta_id ⟨2, 1, [3, 4]⟩ (by decide) (5, 7) 99

/-- C1: `affine_with_default` returns no result exactly when `try_inverse`
fails; otherwise it returns an image of the input's dimensions whose every
pixel `(x, y)` is `nearest` or `interpolate` (per the interpolation mode)
of the input at the pre-image `inverse * Point2(x, y)`. -/
theorem affine_with_default_spec (img : Image) (A : Affine2) (d : Pix)
    (interp : Interpolation) :
    (affine_with_default img A d interp = none ↔ A.try_inverse = none) ∧
    (∀ inverse, A.try_inverse = some inverse →
      ∃ out, affine_with_default img A d interp = some out ∧
        out.width = img.width ∧ out.height = img.height ∧
        ∀ x y, x < img.width → y < img.height →
          out.getPix x y =
            match interp with
            | Interpolation.Nearest =>
                nearest img (inverse.mul ⟨(x : ℚ), (y : ℚ)⟩).x
                  (inverse.mul ⟨(x : ℚ), (y : ℚ)⟩).y d
            | Interpolation.Bilinear =>
                interpolate img (inverse.mul ⟨(x : ℚ), (y : ℚ)⟩).x
                  (inverse.mul ⟨(x : ℚ), (y : ℚ)⟩).y d) := by
  unfold affine_with_default
  cases hinv : A.try_inverse with
  | none =>
    refine ⟨by simp, ?_⟩
    intro inverse h
    simp_all
  | some inv =>
    refine ⟨by simp, ?_⟩
    intro inverse h
    have hinv2 : inv = inverse := by injection h
    subst hinv2
    refine ⟨_, rfl, rfl, rfl, ?_⟩
    intro x y hx hy
    rw [mkImage_getPix _ _ _ hx hy]

/-- Witness for C1: the identity transform on a concrete 2×2 image with
nearest interpolation. -/
theorem affine_with_default_spec_witness :
    ∃ out, affine_with_default ⟨2, 2, [1, 2, 3, 4]⟩
        (Affine2.from_matrix_unchecked 1 0 0 0 1 0 0 0 1) 9
        Interpolation.Nearest = some out ∧
      out.width = Image.width ⟨2, 2, [1, 2, 3, 4]⟩ ∧
      out.height = Image.height ⟨2, 2, [1, 2, 3, 4]⟩ ∧
      ∀ x y, x < Image.width ⟨2, 2, [1, 2, 3, 4]⟩ →
        y < Image.height ⟨2, 2, [1, 2, 3, 4]⟩ →
        out.getPix x y =
          nearest ⟨2, 2, [1, 2, 3, 4]⟩
            ((Affine2.from_matrix_unchecked 1 0 0 0 1 0 0 0 1).mul
              ⟨(x : ℚ), (y : ℚ)⟩).x
            ((Affine2.from_matrix_unchecked 1 0 0 0 1 0 0 0 1).mul
              ⟨(x : ℚ), (y : ℚ)⟩).y 9 :=
  (affine_with_default_spec ⟨2, 2, [1, 2, 3, 4]⟩
      (Affine2.from_matrix_unchecked 1 0 0 0 1 0 0 0 1) 9 Interpolation.Nearest).2
    (Affine2.from_matrix_unchecked 1 0 0 0 1 0 0 0 1)
    (by norm_num [Affine2.try_inverse, Affine2.from_matrix_unchecked])

/-- C8: every output image has the input's width and height, for the
generic resampler (`affine`, `affine_with_default`), the rotation family
(`rotate`, `rotate_about_center`, `rotate_with_default`) and `translate`. -/
theorem output_dims_eq_input_dims (img : Image) (A : Affine2) (d : Pix)
    (interp : Interpolation) (center : ℚ × ℚ) (cos_theta sin_theta : ℚ)
    (t : ℤ × ℤ) :
    (∀ out, affine_with_default img A d interp = some out →
      out.width = img.width ∧ out.height = img.height) ∧
    (∀ out, affine img A interp = some out →
      out.width = img.width ∧ out.height = img.height) ∧
    ((rotate_with_default img center cos_theta sin_theta d interp).width = img.width ∧
      (rotate_with_default img center cos_theta sin_theta d interp).height = img.height) ∧
    ((rotate img center cos_theta sin_theta interp).width = img.width ∧
      (rotate img center cos_theta sin_theta interp).height = img.height) ∧
    ((rotate_about_center img cos_theta sin_theta interp).width = img.width ∧
      (rotate_about_center img cos_theta sin_theta interp).height = img.height) ∧
    (∀ out, img.translate t = some out →
      out.width = img.width ∧ out.height = img.height) := by
  have haff : ∀ (d' : Pix) out, affine_with_default img A d' interp = some out →
      out.width = img.width ∧ out.height = img.height := by
    intro d' out h
    unfold affine_with_default at h
    cases hinv : A.try_inverse with
    | none => rw [hinv] at h; exact absurd h (by simp)
    | some inv =>
      rw [hinv] at h
      have hout := Option.some.inj h
      rw [← hout]
      exact ⟨rfl, rfl⟩
  refine ⟨haff d, haff blackPix, ?_, ?_, ?_, ?_⟩
  · cases interp <;> exact ⟨rfl, rfl⟩
  · unfold rotate rotate_with_default
    cases interp <;> exact ⟨rfl, rfl⟩
  · unfold rotate_about_center rotate rotate_with_default
    cases interp <;> exact ⟨rfl, rfl⟩
  · intro out h
    simp only [Image.translate] at h
    cases hfold : (List.range img.height).foldlM
        (fun buf y => translateRow img t img.width img.height y buf)
        (List.replicate (img.height * img.width) (0 : Pix)) with
    | none => rw [hfold] at h; exact absurd h (by simp)
    | some buf =>
      rw [hfold] at h
      have hout := Option.some.inj h
      rw [← hout]
      exact ⟨rfl, rfl⟩

/-- Witness for C8: the translation component applied to a concrete 3×3
image. -/
theorem output_dims_eq_input_dims_witness :
    Image.width ⟨3, 3, [0, 1, 2, 10, 11, 12, 20, 21, 22]⟩ = 3 ∧
    ∀ out, Image.translate ⟨3, 3, [0, 1, 2, 10, 11, 12, 20, 21, 22]⟩ (1, 1) =
        some out →
      out.width = Image.width ⟨3, 3, [0, 1, 2, 10, 11, 12, 20, 21, 22]⟩ ∧
      out.height = Image.height ⟨3, 3, [0, 1, 2, 10, 11, 12, 20, 21, 22]⟩ := by
  refine ⟨rfl, ?_⟩
  intro out h
  exact (output_dims_eq_input_dims ⟨3, 3, [0, 1, 2, 10, 11, 12, 20, 21, 22]⟩
      (Affine2.from_matrix_unchecked 1 0 0 0 1 0 0 0 1) 0 Interpolation.Nearest
      (0, 0) 1 0 (1, 1)).2.2.2.2.2 out h

/-- C10: every bounds-unchecked pixel read of `nearest` and `interpolate`
happens at coordinates already proven in `[0, width) × [0, height)` by the
preceding bounds test (so the guarded access returns `some`, and under
well-formedness the flat-buffer index is within the buffer), and every
unchecked write of the resampling loops is at in-bounds loop coordinates. -/
theorem unchecked_access_in_bounds :
    (∀ (img : Image) (x y : ℚ),
      ¬(((rnd x : ℤ) : ℚ) < 0 ∨ (img.width : ℚ) ≤ ((rnd x : ℤ) : ℚ) ∨
          ((rnd y : ℤ) : ℚ) < 0 ∨ (img.height : ℚ) ≤ ((rnd y : ℤ) : ℚ)) →
        img.getPixel? (rnd x).toNat (rnd y).toNat =
          some (img.getPix (rnd x).toNat (rnd y).toNat) ∧
        (img.wf → (rnd y).toNat * img.width + (rnd x).toNat < img.data.length)) ∧
    (∀ (img : Image) (x y : ℚ),
      ¬((⌊x⌋ : ℚ) < 0 ∨ (img.width : ℚ) ≤ (⌊x⌋ : ℚ) + 1 ∨
          (⌊y⌋ : ℚ) < 0 ∨ (img.height : ℚ) ≤ (⌊y⌋ : ℚ) + 1) →
        (img.getPixel? ⌊x⌋.toNat ⌊y⌋.toNat).isSome ∧
        (img.getPixel? (⌊x⌋ + 1).toNat ⌊y⌋.toNat).isSome ∧
        (img.getPixel? ⌊x⌋.toNat (⌊y⌋ + 1).toNat).isSome ∧
        (img.getPixel? (⌊x⌋ + 1).toNat (⌊y⌋ + 1).toNat).isSome) ∧
    (∀ (w h : ℕ) (f : ℕ → ℕ → Pix) (x y : ℕ), x < w → y < h →
      (mkImage w h f).getPixel? x y = some (f x y)) := by
  refine ⟨?_, ?_, ?_⟩
  · intro img x y hcond
    simp only [not_or, not_lt, not_le] at hcond
    obtain ⟨h1, h2, h3, h4⟩ := hcond
    have hx0 : 0 ≤ rnd x := by exact_mod_cast h1
    have hxw : rnd x < (img.width : ℤ) := by exact_mod_cast h2
    have hy0 : 0 ≤ rnd y := by exact_mod_cast h3
    have hyh : rnd y < (img.height : ℤ) := by exact_mod_cast h4
    have hx : (rnd x).toNat < img.width := by omega
    have hy : (rnd y).toNat < img.height := by omega
    refine ⟨?_, ?_⟩
    · unfold Image.getPixel?
      rw [if_pos ⟨hx, hy⟩]
    · intro hwf
      rw [hwf]
      exact row_major_index_lt hx hy
  · intro img x y hcond
    simp only [not_or, not_lt, not_le] at hcond
    obtain ⟨h1, h2, h3, h4⟩ := hcond
    have hx0 : 0 ≤ ⌊x⌋ := by exact_mod_cast h1
    have hxw : ⌊x⌋ + 1 < (img.width : ℤ) := by exact_mod_cast h2
    have hy0 : 0 ≤ ⌊y⌋ := by exact_mod_cast h3
    have hyh : ⌊y⌋ + 1 < (img.height : ℤ) := by exact_mod_cast h4
    refine ⟨?_, ?_, ?_, ?_⟩ <;>
      · unfold Image.getPixel?
        rw [if_pos ⟨by omega, by omega⟩]
        rfl
  · intro w h f x y hx hy
    unfold Image.getPixel?
    rw [if_pos ⟨hx, hy⟩, mkImage_getPix _ _ _ hx hy]

/-- Witness for C10: concrete in-bounds accesses on a 3×3 image at the
pre-image (3/2, 1/2) for both primitives, and an in-bounds write. -/
theorem unchecked_access_in_bounds_witness :
    (Image.getPixel? ⟨3, 3, [0, 1, 2, 10, 11, 12, 20, 21, 22]⟩
        (rnd (3/2 : ℚ)).toNat (rnd (1/2 : ℚ)).toNat =
      some (Image.getPix ⟨3, 3, [0, 1, 2, 10, 11, 12, 20, 21, 22]⟩
        (rnd (3/2 : ℚ)).toNat (rnd (1/2 : ℚ)).toNat)) ∧
    (Image.getPixel? ⟨3, 3, [0, 1, 2, 10, 11, 12, 20, 21, 22]⟩
        ⌊(3/2 : ℚ)⌋.toNat ⌊(1/2 : ℚ)⌋.toNat).isSome ∧
    (mkImage 3 3 (fun _ _ => 5)).getPixel? 1 2 = some 5 := by
  refine ⟨?_, ?_, ?_⟩
  · exact ((unchecked_access_in_bounds.1 ⟨3, 3, [0, 1, 2, 10, 11, 12, 20, 21, 22]⟩
      (3/2) (1/2)) (by norm_num [rnd])).1
  · exact ((unchecked_access_in_bounds.2.1 ⟨3, 3, [0, 1, 2, 10, 11, 12, 20, 21, 22]⟩
      (3/2) (1/2)) (by norm_num)).1
  · exact unchecked_access_in_bounds.2.2 3 3 (fun _ _ => 5) 1 2
      (by decide) (by decide)

